import Mathlib

/-!
Verification of the `eth` KZG helper layer of go-kzg (`eth/helpers.go`).

The development is a shallow embedding of the Go source.  Pure helper
functions are translated as Lean functions; the external BLS12-381
primitives (field, curve groups, pairing, point codec) that the source
consumes through the `bls` package are modelled from the specification's
description of them, as documented at each such definition.

Two layers are modelled:

* a byte-level layer (`Nat`-valued bytes) for the codec and the
  Fiat-Shamir transcript (`BytesToBLSField`, `HashToBLSField`,
  `bigToFr`), where the scalar field is represented by canonical
  representatives in `[0, BLSModulus)`;
* an algebraic layer over an arbitrary decidable field `F`, where a
  G1/G2 group element is represented by its discrete logarithm with
  respect to the group generator (the source only manipulates points
  through scalar multiplication, addition, linear combination and the
  pairing check, all of which act on the exponents).
-/

namespace GoKZG

/-- `ZMod 5` serves as a small concrete scalar field for the closed
witness instances. -/
instance : Fact (Nat.Prime 5) := ⟨by norm_num⟩

/-! ### Byte-level layer: codec -/

/-- Modelled from the spec: the BLS12-381 scalar-field modulus used by the
`eth` package's `BLSModulus` big integer (the spec's "scalar-field
modulus"); the constant itself lives outside `src/`. -/
def BLSModulus : Nat :=
  52435875175126190479447740508185965837690552500527637822603658699938581184513

/-- A 32-byte array, as in Go's `[32]byte`; only indices `0..31` are ever
read. -/
abbrev Bytes32 : Type := Nat → Nat

/-- One iteration of the byte-swap loop
`b[31-i], b[i] = b[i], b[31-i]` used in `BytesToBLSField` and `bigToFr`. -/
def swapStep (b : Bytes32) (i : Nat) : Bytes32 := fun j =>
  if j = i then b (31 - i) else if j = 31 - i then b i else b j

/-- The loop `for i := 0; i < k; i++ { b[31-i], b[i] = b[i], b[31-i] }`. -/
def byteSwapLoop (b : Bytes32) : Nat → Bytes32
  | 0 => b
  | k + 1 => swapStep (byteSwapLoop b k) k

/-- Big-endian value of a 32-byte array, as computed by
`new(big.Int).SetBytes(b[:])`. -/
def beVal32 (b : Bytes32) : Nat := ∑ i ∈ Finset.range 32, b i * 256 ^ (31 - i)

/-- Little-endian value of a 32-byte array. -/
def leVal32 (b : Bytes32) : Nat := ∑ i ∈ Finset.range 32, b i * 256 ^ i

/-- Modelled from the spec: `bls.FrFrom32` (the `bls` package is not under
`src/`).  It decodes 32 little-endian bytes into a scalar, succeeding
exactly when the value is a canonical representative (below the
modulus). -/
def FrFrom32 (b : Bytes32) : Option Nat :=
  if leVal32 b < BLSModulus then some (leVal32 b) else none

/-- `copy(b[32-len(inb):], inb)` for `inb := in.Bytes()`: the 32-byte
big-endian, zero-padded encoding of a natural number. -/
def natToBytes32BE (z : Nat) : Bytes32 := fun i => z / 256 ^ (31 - i) % 256

/-- `bigToFr` from `eth/helpers.go`: encode the big integer big-endian,
byte-swap to little-endian, and decode with `bls.FrFrom32`. -/
def bigToFr (z : Nat) : Option Nat :=
  FrFrom32 (byteSwapLoop (natToBytes32BE z) 16)

/-- `BytesToBLSField` from `eth/helpers.go`: byte-swap the input,
interpret it as a big-endian integer, reduce modulo `BLSModulus` and
convert with `bigToFr` (whose boolean result the Go code discards). -/
def BytesToBLSField (h : Bytes32) : Nat :=
  (bigToFr (beVal32 (byteSwapLoop h 16) % BLSModulus)).getD 0

/-! ### Byte-level layer: Fiat-Shamir transcript -/

/-- `binary.LittleEndian.PutUint64`: the 8-byte little-endian encoding of
an integer. -/
def le64 (x : Nat) : List Nat := (List.range 8).map fun i => x / 256 ^ i % 256

/-- Modelled from the spec: `bls.FrTo32` (not under `src/`), the canonical
(little-endian) 32-byte encoding of a scalar given by its canonical
representative. -/
def frTo32 (x : Nat) : List Nat := (List.range 32).map fun i => x / 256 ^ i % 256

/-- The ASCII bytes of `FIAT_SHAMIR_PROTOCOL_DOMAIN = "FSBLOBVERIFY_V1_"`. -/
def fiatShamirProtocolDomain : List Nat :=
  [70, 83, 66, 76, 79, 66, 86, 69, 82, 73, 70, 89, 95, 86, 49, 95]

/-- `copy(hash[:], sha.Sum(nil))` viewed as a 32-byte array: positions
beyond the digest length stay zero, positions past 31 are never read. -/
def bytes32ofList (l : List Nat) : Bytes32 := fun i => l.getD i 0

/-- `HashToBLSField` from `eth/helpers.go`.  The incremental `sha.Write`
calls are modelled by accumulating the written bytes and applying the
digest function `shaFn` (the SHA-256 primitive, abstract here) to the
accumulated stream; `sha.Write` never returns an error, so the Go
function's error result is always `nil` and is dropped.  The domain-size
constant `FieldElementsPerBlob` lives outside `src/` and is a
parameter. -/
def HashToBLSField (shaFn : List Nat → List Nat) (fieldElementsPerBlob : Nat)
    (polys : List (List Nat)) (comms : List (List Nat)) : Nat :=
  let acc := ([] : List Nat) ++ fiatShamirProtocolDomain
  let acc := acc ++ le64 fieldElementsPerBlob
  let acc := acc ++ le64 polys.length
  let acc := polys.foldl (fun a poly => poly.foldl (fun a2 fe => a2 ++ frTo32 fe) a) acc
  let acc := comms.foldl (fun a c => a ++ c) acc
  BytesToBLSField (bytes32ofList (shaFn acc))

/-! ### Bit-reversal permutation -/

/-- `isPowerOfTwo` from `eth/helpers.go`:
`value > 0 && (value&(value-1) == 0)`. -/
def isPowerOfTwo (value : Nat) : Bool :=
  decide (0 < value) && (value &&& (value - 1) == 0)

/-- Model of Go `bits.Len64`: the number of bits needed to represent `n`;
zero for `n = 0`. -/
def len64 (n : Nat) : Nat := if n = 0 then 0 else Nat.log2 n + 1

/-- Model of Go `bits.Reverse64`: the value of `n`'s 64 bits in reversed
order (faithful for `n < 2^64`, the range of `uint64`). -/
def reverse64 (n : Nat) : Nat :=
  ∑ j ∈ Finset.range 64, n / 2 ^ j % 2 * 2 ^ (63 - j)

/-- `reverseBits` from `eth/helpers.go`:
`bits.Reverse64(n) >> (65 - bits.Len64(order))`.  The Go function panics
when `order` is not a power of two; that branch is modelled by a junk
value and is never reached below. -/
def reverseBits (n order : Nat) : Nat :=
  if isPowerOfTwo order then reverse64 n >>> (65 - len64 order) else 0

/-- `bitReversalPermutation` from `eth/helpers.go`:
`out[i] = l[reverseBits(i, uint64(len(l)))]`. -/
def bitReversalPermutation {α : Type} [Inhabited α] (l : List α) : List α :=
  (List.range l.length).map fun i => l.getD (reverseBits i l.length) default

/-! ### Algebraic layer

`F` is the BLS12-381 scalar field, kept abstract: the source reaches it
only through the `bls` package's field operations.  A G1 or G2 point is
represented by its discrete logarithm (an element of `F`), the generator
being `1`; point addition, subtraction, scalar multiplication and linear
combination then act on these exponents, and the pairing check
`e(a1, a2) == e(b1, b2)` becomes `a1 * a2 = b1 * b2`. -/

section Algebraic

variable {F : Type} [Field F] [DecidableEq F]

/-- Modelled from the spec: a compressed G1 point (48 bytes).  `some x` is
the canonical encoding of the point with exponent `x`; `none` models an
invalid encoding — in particular the all-zero `[48]byte`, which is the Go
zero value `KZGProof{}` / `KZGCommitment{}` and is not a valid compressed
point. -/
abbrev CompressedG1 (F : Type) : Type := Option F

/-- Modelled from the spec: `bls.ToCompressedG1`, canonical compression
of a group element. -/
def ToCompressedG1 (x : F) : CompressedG1 F := some x

/-- Modelled from the spec: `bls.FromCompressedG1`, which fails with a
decode error on malformed input. -/
def FromCompressedG1 (c : CompressedG1 F) : Except String F :=
  match c with
  | some x => .ok x
  | none => .error "failed to decode point"

/-- Modelled from the spec: `bls.LinCombG1`, the multi-scalar
multiplication `Σ factors[i]·numbers[i]` in exponent form.  The Go
signature returns a bare point with no error value, so a length mismatch
cannot be reported; the sum ranges over the common prefix. -/
def LinCombG1 (numbers factors : List F) : F :=
  (List.zipWith (fun p s => s * p) numbers factors).sum

/-- The loop body of `ComputePowers`: emit `currentPower`, then multiply
it by `r`. -/
def computePowersAux (r : F) : F → Nat → List F
  | _, 0 => []
  | cur, n + 1 => cur :: computePowersAux r (cur * r) n

/-- `ComputePowers` from `eth/helpers.go`. -/
def ComputePowers (r : F) (n : Nat) : List F := computePowersAux r 1 n

/-- The Lagrange basis function for node `i` of the domain, evaluated at
`x`. -/
def lagrangeBasisAt (d : List F) (i : Nat) (x : F) : F :=
  ∏ j ∈ (Finset.range d.length).erase i, (x - d.getD j 0) / (d.getD i 0 - d.getD j 0)

/-- `EvaluatePolynomialInEvaluationForm` from `eth/helpers.go`.  The
engine `bls.EvaluatePolyInEvaluationForm` is not under `src/` and is
modelled from the spec: "Lagrange-interpolate the polynomial (already in
evaluation form over Domain) at an arbitrary point `z`, using barycentric
evaluation over the Domain; if `z` coincides exactly with a Domain point,
returns that point's stored value directly (no division needed)". -/
def EvaluatePolynomialInEvaluationForm (d p : List F) (x : F) : F :=
  if x ∈ d then p.getD (d.indexOf x) 0
  else ∑ i ∈ Finset.range d.length, p.getD i 0 * lagrangeBasisAt d i x

/-- The denominator loop of `ComputeKZGProof`:
`if bls.EqualFr(&DomainFr[i], z) { return error }` else
`denominatorPoly[i] = DomainFr[i] - z`.  (The Go loop runs over the
polynomial's indices, which coincide with the domain's after the length
check that precedes it.) -/
def computeDenominators (d : List F) (z : F) : Except String (List F) :=
  match d with
  | [] => .ok []
  | x :: xs =>
    if x = z then .error "invalid z challenge"
    else
      match computeDenominators xs z with
      | .error e => .error e
      | .ok rest => .ok ((x - z) :: rest)

/-- `ComputeKZGProof` from `eth/helpers.go`, with the Go result pair
`(KZGProof, error)` kept: the first component is the (compressed) proof,
the second the error. -/
def ComputeKZGProof (d srs p : List F) (z : F) : CompressedG1 F × Option String :=
  let y := EvaluatePolynomialInEvaluationForm d p z
  let shifted := p.map (fun a => a - y)
  if p.length ≠ d.length then (none, some "polynomial has invalid length")
  else
    match computeDenominators d z with
    | .error e => (none, some e)
    | .ok denom =>
      let quotient := List.zipWith (fun a b => a / b) shifted denom
      (ToCompressedG1 (LinCombG1 srs quotient), none)

/-- `PolynomialToKZGCommitment` from `eth/helpers.go`.  The bit-reversed
Lagrange SRS `kzgSetupLagrange` (a package global initialised outside
`src/`) is passed explicitly as `srs`. -/
def PolynomialToKZGCommitment (srs p : List F) : CompressedG1 F :=
  ToCompressedG1 (LinCombG1 srs p)

/-- `VerifyKZGProofFromPoints` from `eth/helpers.go`.  `g2one` is the
exponent of the degree-1 G2 SRS element `kzgSetupG2[1]` (that is, τ);
`bls.PairingsVerify(&pMinusY, &bls.GenG2, kzgProof, &xMinusZ)` is the
pairing check modelled on exponents, the G2 generator having exponent
`1`. -/
def VerifyKZGProofFromPoints (g2one polynomialKZG z y kzgProof : F) : Bool :=
  decide ((polynomialKZG - y) * 1 = kzgProof * (g2one - z))

/-- Elementwise sum of two polynomials in evaluation form. -/
def addPolys (a b : List F) : List F := List.zipWith (fun x y => x + y) a b

/-- A polynomial scaled elementwise by a scalar. -/
def scalePoly (s : F) (v : List F) : List F := v.map (fun x => s * x)

/-- Modelled from the spec: `bls.PolyLinComb` (not under `src/`), "the
elementwise linear combination `Σ powers[i] * polynomials[i]`"; its Go
signature returns `([]Fr, error)`, the error reporting inconsistent
argument lengths. -/
def PolyLinComb (vectors : List (List F)) (scalars : List F) : Except String (List F) :=
  match vectors with
  | [] => .error "no vectors"
  | v0 :: _ =>
    if vectors.length = scalars.length ∧ ∀ v ∈ vectors, v.length = v0.length then
      .ok ((List.zip vectors scalars).foldl
        (fun acc vs => addPolys acc (scalePoly vs.2 vs.1))
        (List.replicate v0.length 0))
    else .error "length mismatch"

/-- The commitment-decoding loop of `ComputeAggregatedPolyAndCommitment`,
which aborts at the first commitment that fails point decoding. -/
def decodeCommitments : List (CompressedG1 F) → Except String (List F)
  | [] => .ok []
  | c :: cs =>
    match FromCompressedG1 c with
    | .error e => .error e
    | .ok p =>
      match decodeCommitments cs with
      | .error e => .error e
      | .ok rest => .ok (p :: rest)

/-- `ComputeAggregatedPolyAndCommitment` from `eth/helpers.go`.  The
Fiat-Shamir challenge `r = HashToBLSField(blobs, commitments)` is
obtained through the abstract digest `hashFn` (`HashToBLSField` never
returns an error — see the byte-level layer — so it is modelled as a
total function). -/
def ComputeAggregatedPolyAndCommitment
    (hashFn : List (List F) → List (CompressedG1 F) → F)
    (blobs : List (List F)) (commitments : List (CompressedG1 F)) :
    Except String (List F × F × F) :=
  let r := hashFn blobs commitments
  let powers := ComputePowers r blobs.length
  -- the Go literal is "powers can't be 0 length"; the apostrophe is elided
  if powers.length = 0 then .error "powers cannot be 0 length"
  else
    let evaluationChallenge := r * powers.getD (powers.length - 1) 0
    match PolyLinComb blobs powers with
    | .error e => .error e
    | .ok aggregatedPoly =>
      match decodeCommitments commitments with
      | .error e => .error e
      | .ok commitmentsG1 =>
        .ok (aggregatedPoly, LinCombG1 commitmentsG1 powers, evaluationChallenge)

/-- `ComputeAggregateKZGProofFromPolynomials` from `eth/helpers.go`,
returning the Go pair `(KZGProof, error)`; on error the Go code returns
the zero value `KZGProof{}` (the all-zero bytes, `none` here). -/
def ComputeAggregateKZGProofFromPolynomials
    (hashFn : List (List F) → List (CompressedG1 F) → F)
    (d srs : List F) (blobs : List (List F)) : CompressedG1 F × Option String :=
  let commitments := blobs.map (PolynomialToKZGCommitment srs)
  match ComputeAggregatedPolyAndCommitment hashFn blobs commitments with
  | .error e => (none, some e)
  | .ok result => ComputeKZGProof d srs result.1 result.2.2

/-- `VerifyAggregateKZGProofFromPolynomials` from `eth/helpers.go`. -/
def VerifyAggregateKZGProofFromPolynomials
    (hashFn : List (List F) → List (CompressedG1 F) → F)
    (d : List F) (g2one : F)
    (blobs : List (List F)) (expectedKZGCommitments : List (CompressedG1 F))
    (kzgAggregatedProof : CompressedG1 F) : Except String Bool :=
  match ComputeAggregatedPolyAndCommitment hashFn blobs expectedKZGCommitments with
  | .error e => .error e
  | .ok result =>
    let y := EvaluatePolynomialInEvaluationForm d result.1 result.2.2
    match FromCompressedG1 kzgAggregatedProof with
    | .error e => .error ("failed to decode kzgProof: " ++ e)
    | .ok kzgProofG1 =>
      .ok (VerifyKZGProofFromPoints g2one result.2.1 result.2.2 y kzgProofG1)

end Algebraic

/-! ### Proofs -/

theorem byteSwapLoop_apply (b : Bytes32) (j : Nat) (hj : j < 32) :
    byteSwapLoop b 16 j = b (31 - j) := by
  interval_cases j <;> rfl

/-- Base-`B` digit reconstruction: summing the first `k` digits of `z`
recovers `z % B ^ k`. -/
theorem sum_digits_base (B : Nat) :
    ∀ k z : Nat, ∑ i ∈ Finset.range k, z / B ^ i % B * B ^ i = z % B ^ k
  | 0, z => by simp [Nat.mod_one]
  | k + 1, z => by
    rw [Finset.sum_range_succ']
    have hstep : ∑ i ∈ Finset.range k, z / B ^ (i + 1) % B * B ^ (i + 1)
        = B * ∑ i ∈ Finset.range k, z / B / B ^ i % B * B ^ i := by
      rw [Finset.mul_sum]
      refine Finset.sum_congr rfl fun i _ => ?_
      rw [pow_succ', ← Nat.div_div_eq_div_mul]
      ring
    rw [hstep, sum_digits_base B k (z / B)]
    have h1 : z % B ^ (k + 1) % B = z % B :=
      Nat.mod_mod_of_dvd z ⟨B ^ k, by rw [pow_succ']⟩
    have h2 : z % B ^ (k + 1) / B = z / B % B ^ k := by
      rw [pow_succ']
      exact Nat.mod_mul_right_div_self z B (B ^ k)
    conv_rhs => rw [← Nat.div_add_mod (z % B ^ (k + 1)) B]
    rw [h1, h2]
    simp [pow_zero, Nat.div_one, mul_one]

theorem leVal32_swap_natToBytes32BE (z : Nat) (hz : z < 256 ^ 32) :
    leVal32 (byteSwapLoop (natToBytes32BE z) 16) = z := by
  unfold leVal32
  have h : ∀ i ∈ Finset.range 32,
      byteSwapLoop (natToBytes32BE z) 16 i * 256 ^ i = z / 256 ^ i % 256 * 256 ^ i := by
    intro i hi
    rw [Finset.mem_range] at hi
    rw [byteSwapLoop_apply _ i hi]
    have h31 : 31 - (31 - i) = i := Nat.sub_sub_self (by omega)
    simp [natToBytes32BE, h31]
  rw [Finset.sum_congr rfl h, sum_digits_base, Nat.mod_eq_of_lt hz]

theorem BLSModulus_lt : BLSModulus < 256 ^ 32 := by decide

/-- Claim C9: `BytesToBLSField` never fails on any 32-byte input, and
returns the canonical scalar obtained by reversing the byte order of the
input and reducing the resulting (big-endian) integer modulo the BLS
scalar-field modulus. -/
theorem bytesToBLSField_spec (h : Bytes32) :
    BytesToBLSField h = beVal32 (fun i => h (31 - i)) % BLSModulus ∧
    (bigToFr (beVal32 (byteSwapLoop h 16) % BLSModulus)).isSome = true ∧
    BytesToBLSField h < BLSModulus := by
  have hq : 0 < BLSModulus := by decide
  have hz : beVal32 (byteSwapLoop h 16) % BLSModulus < 256 ^ 32 :=
    lt_trans (Nat.mod_lt _ hq) BLSModulus_lt
  have hle : leVal32 (byteSwapLoop (natToBytes32BE
      (beVal32 (byteSwapLoop h 16) % BLSModulus)) 16)
      = beVal32 (byteSwapLoop h 16) % BLSModulus :=
    leVal32_swap_natToBytes32BE _ hz
  have hlt : leVal32 (byteSwapLoop (natToBytes32BE
      (beVal32 (byteSwapLoop h 16) % BLSModulus)) 16) < BLSModulus := by
    rw [hle]; exact Nat.mod_lt _ hq
  have hswap : beVal32 (byteSwapLoop h 16) = beVal32 (fun i => h (31 - i)) := by
    unfold beVal32
    refine Finset.sum_congr rfl fun i hi => ?_
    rw [Finset.mem_range] at hi
    rw [byteSwapLoop_apply h i hi]
  have hbig : bigToFr (beVal32 (byteSwapLoop h 16) % BLSModulus)
      = some (beVal32 (byteSwapLoop h 16) % BLSModulus) := by
    unfold bigToFr FrFrom32
    rw [if_pos hlt, hle]
  refine ⟨?_, ?_, ?_⟩
  · rw [BytesToBLSField, hbig, Option.getD_some, hswap]
  · rw [hbig]; rfl
  · rw [BytesToBLSField, hbig, Option.getD_some]
    exact Nat.mod_lt _ hq

theorem foldl_append_eq {α β : Type} (f : α → List β) :
    ∀ (l : List α) (acc : List β),
      l.foldl (fun a x => a ++ f x) acc = acc ++ (l.map f).flatten
  | [], acc => by simp
  | x :: xs, acc => by
    simp only [List.foldl_cons, List.map_cons, List.flatten_cons]
    rw [foldl_append_eq f xs (acc ++ f x), List.append_assoc]

theorem foldl_polys_eq :
    ∀ (polys : List (List Nat)) (acc : List Nat),
      polys.foldl (fun a poly => poly.foldl (fun a2 fe => a2 ++ frTo32 fe) a) acc
        = acc ++ (polys.map fun p => (p.map frTo32).flatten).flatten
  | [], acc => by simp
  | p :: ps, acc => by
    simp only [List.foldl_cons, List.map_cons, List.flatten_cons]
    rw [foldl_polys_eq ps (p.foldl (fun a2 fe => a2 ++ frTo32 fe) acc),
      foldl_append_eq frTo32 p acc, List.append_assoc]

theorem foldl_comms_eq (comms : List (List Nat)) (acc : List Nat) :
    comms.foldl (fun a c => a ++ c) acc = acc ++ comms.flatten := by
  have h := foldl_append_eq (fun c : List Nat => c) comms acc
  simpa using h

/-- Claim C4: `HashToBLSField` hashes exactly the byte sequence
tag ‖ le64(n) ‖ le64(m) ‖ scalars ‖ commitments, in this order, reduces
the 32-byte digest with `BytesToBLSField`, and is a deterministic
function of its inputs. -/
theorem hashToBLSField_transcript (shaFn : List Nat → List Nat) (n : Nat)
    (polys : List (List Nat)) (comms : List (List Nat)) :
    HashToBLSField shaFn n polys comms
      = BytesToBLSField (bytes32ofList (shaFn
          (fiatShamirProtocolDomain ++ le64 n ++ le64 polys.length
            ++ (polys.map fun p => (p.map frTo32).flatten).flatten
            ++ comms.flatten))) ∧
    ∀ (polys2 comms2 : List (List Nat)), polys = polys2 → comms = comms2 →
      HashToBLSField shaFn n polys comms = HashToBLSField shaFn n polys2 comms2 := by
  constructor
  · unfold HashToBLSField
    simp only [foldl_polys_eq, foldl_comms_eq, List.nil_append, List.append_assoc]
  · intro polys2 comms2 h1 h2
    rw [h1, h2]

/-- Claim C4 witness. -/
theorem hashToBLSField_transcript_witness :
    HashToBLSField (fun l => l.take 32) 4 [[1, 2]] [[9, 9]]
      = BytesToBLSField (bytes32ofList ((fun l : List Nat => l.take 32)
          (fiatShamirProtocolDomain ++ le64 4
            ++ le64 ([[1, 2]] : List (List Nat)).length
            ++ (([[1, 2]] : List (List Nat)).map fun p => (p.map frTo32).flatten).flatten
            ++ ([[9, 9]] : List (List Nat)).flatten))) ∧
    HashToBLSField (fun l => l.take 32) 4 [[1, 2]] [[9, 9]]
      = HashToBLSField (fun l => l.take 32) 4 [[1, 2]] [[9, 9]] :=
  ⟨(hashToBLSField_transcript (fun l => l.take 32) 4 [[1, 2]] [[9, 9]]).1,
    (hashToBLSField_transcript (fun l => l.take 32) 4 [[1, 2]] [[9, 9]]).2
      [[1, 2]] [[9, 9]] rfl rfl⟩

theorem isPowerOfTwo_two_pow (k : Nat) : isPowerOfTwo (2 ^ k) = true := by
  unfold isPowerOfTwo
  rw [Bool.and_eq_true]
  constructor
  · simp [pow_pos]
  · rw [beq_iff_eq]
    refine Nat.eq_of_testBit_eq fun j => ?_
    rw [Nat.testBit_and]
    rcases eq_or_ne j k with rfl | hjk
    · have h2 : (2 ^ j - 1).testBit j = false :=
        Nat.testBit_eq_false_of_lt (Nat.sub_lt (pow_pos (by norm_num) j) one_pos)
      simp [h2]
    · have h1 : (2 ^ k).testBit j = false := Nat.testBit_two_pow_of_ne hjk.symm
      simp [h1]

theorem len64_two_pow (k : Nat) : len64 (2 ^ k) = k + 1 := by
  unfold len64
  rw [if_neg (pow_pos (by norm_num : (0:ℕ) < 2) k).ne',
    Nat.log2_eq_log_two, Nat.log_pow (by norm_num)]

/-- For an index below the power-of-two order, `reverseBits` computes the
base-2 digit reversal on `k` bits (little-endian form). -/
theorem reverseBits_two_pow (k : Nat) (hk : k < 64) (i : Nat) (hi : i < 2 ^ k) :
    reverseBits i (2 ^ k) = ∑ m ∈ Finset.range k, i / 2 ^ (k - 1 - m) % 2 * 2 ^ m := by
  unfold reverseBits
  rw [if_pos (isPowerOfTwo_two_pow k), len64_two_pow]
  have hshift : 65 - (k + 1) = 64 - k := by omega
  rw [hshift, Nat.shiftRight_eq_div_pow]
  have hsub : Finset.range k ⊆ Finset.range 64 := Finset.range_subset.mpr (by omega)
  have hzero : ∀ j ∈ Finset.range 64, j ∉ Finset.range k →
      i / 2 ^ j % 2 * 2 ^ (63 - j) = 0 := by
    intro j _ hj
    rw [Finset.mem_range, not_lt] at hj
    have : i / 2 ^ j = 0 :=
      Nat.div_eq_of_lt (lt_of_lt_of_le hi (pow_le_pow_right₀ (by norm_num) hj))
    simp [this]
  have hbig : reverse64 i
      = (∑ j ∈ Finset.range k, i / 2 ^ j % 2 * 2 ^ (k - 1 - j)) * 2 ^ (64 - k) := by
    unfold reverse64
    rw [← Finset.sum_subset hsub hzero, Finset.sum_mul]
    refine Finset.sum_congr rfl fun j hj => ?_
    rw [Finset.mem_range] at hj
    have hexp : 63 - j = k - 1 - j + (64 - k) := by omega
    rw [hexp, pow_add, mul_assoc]
  rw [hbig, Nat.mul_div_cancel _ (pow_pos (by norm_num) _)]
  have := Finset.sum_range_reflect (fun m => i / 2 ^ (k - 1 - m) % 2 * 2 ^ m) k
  rw [← this]
  refine Finset.sum_congr rfl fun j hj => ?_
  rw [Finset.mem_range] at hj
  have h1 : k - 1 - (k - 1 - j) = j := by omega
  rw [h1]

/-- A number with `k` base-`B` digits is below `B ^ k`. -/
theorem sum_digits_lt (B : Nat) (c : Nat → Nat) (hc : ∀ j, c j < B) :
    ∀ k, ∑ j ∈ Finset.range k, c j * B ^ j < B ^ k
  | 0 => by simp
  | k + 1 => by
    rw [Finset.sum_range_succ, pow_succ]
    have h1 : ∑ j ∈ Finset.range k, c j * B ^ j < B ^ k := sum_digits_lt B c hc k
    have h2 : c k + 1 ≤ B := hc k
    calc ∑ j ∈ Finset.range k, c j * B ^ j + c k * B ^ k
        < B ^ k + c k * B ^ k := by omega
      _ = B ^ k * (c k + 1) := by ring
      _ ≤ B ^ k * B := Nat.mul_le_mul_left _ h2

/-- Extracting digit `t` from a `k`-digit base-`B` expansion. -/
theorem digit_extract (B : Nat) (c : Nat → Nat) (hc : ∀ j, c j < B)
    (k t : Nat) (ht : t < k) :
    (∑ j ∈ Finset.range k, c j * B ^ j) / B ^ t % B = c t := by
  have h2 : ∑ j ∈ Finset.Ico t k, c j * B ^ j
      = B ^ t * ∑ j ∈ Finset.range (k - t), c (t + j) * B ^ j := by
    rw [Finset.sum_Ico_eq_sum_range, Finset.mul_sum]
    refine Finset.sum_congr rfl fun j _ => ?_
    rw [pow_add]; ring
  have hB : 0 < B := Nat.lt_of_le_of_lt (Nat.zero_le (c 0)) (hc 0)
  have hsplit : ∑ j ∈ Finset.range k, c j * B ^ j
      = ∑ j ∈ Finset.range t, c j * B ^ j
        + B ^ t * ∑ j ∈ Finset.range (k - t), c (t + j) * B ^ j := by
    rw [congrFun Finset.range_eq_Ico k,
      ← Finset.sum_Ico_consecutive _ (Nat.zero_le t) ht.le,
      ← Finset.range_eq_Ico, h2]
  have hA : ∑ j ∈ Finset.range t, c j * B ^ j < B ^ t := sum_digits_lt B c hc t
  rw [hsplit, Nat.add_mul_div_left _ _ (pow_pos hB t),
    Nat.div_eq_of_lt hA, Nat.zero_add]
  obtain ⟨m, hm⟩ : ∃ m, k - t = m + 1 := ⟨k - t - 1, by omega⟩
  rw [hm, Finset.sum_range_succ']
  have hstep : ∑ j ∈ Finset.range m, c (t + (j + 1)) * B ^ (j + 1)
      = (∑ j ∈ Finset.range m, c (t + (j + 1)) * B ^ j) * B := by
    rw [Finset.sum_mul]
    refine Finset.sum_congr rfl fun j _ => ?_
    rw [pow_succ]; ring
  rw [hstep, Nat.add_zero, pow_zero, mul_one,
    Nat.add_comm ((∑ j ∈ Finset.range m, c (t + (j + 1)) * B ^ j) * B) (c t),
    Nat.add_mul_mod_self_right, Nat.mod_eq_of_lt (hc t)]

theorem reverseBits_lt (k : Nat) (hk : k < 64) (i : Nat) (hi : i < 2 ^ k) :
    reverseBits i (2 ^ k) < 2 ^ k := by
  rw [reverseBits_two_pow k hk i hi]
  exact sum_digits_lt 2 _ (fun j => Nat.mod_lt _ (by norm_num)) k

/-- Index-level involution: reversing `k` bits twice is the identity on
`[0, 2^k)`. -/
theorem reverseBits_involution (k : Nat) (hk : k < 64) (i : Nat) (hi : i < 2 ^ k) :
    reverseBits (reverseBits i (2 ^ k)) (2 ^ k) = i := by
  have hR : reverseBits i (2 ^ k) < 2 ^ k := reverseBits_lt k hk i hi
  rw [reverseBits_two_pow k hk _ hR]
  have hdig : ∀ m < k, reverseBits i (2 ^ k) / 2 ^ (k - 1 - m) % 2 = i / 2 ^ m % 2 := by
    intro m hm
    have h1 : k - 1 - (k - 1 - m) = m := by omega
    have h := digit_extract 2 (fun j => i / 2 ^ (k - 1 - j) % 2)
      (fun j => Nat.mod_lt _ (by norm_num)) k (k - 1 - m) (by omega)
    simp only [h1] at h
    rw [reverseBits_two_pow k hk i hi]
    exact h
  calc ∑ m ∈ Finset.range k, reverseBits i (2 ^ k) / 2 ^ (k - 1 - m) % 2 * 2 ^ m
      = ∑ m ∈ Finset.range k, i / 2 ^ m % 2 * 2 ^ m := by
        refine Finset.sum_congr rfl fun m hm => ?_
        rw [Finset.mem_range] at hm
        rw [hdig m hm]
    _ = i % 2 ^ k := sum_digits_base 2 k i
    _ = i := Nat.mod_eq_of_lt hi

/-- Claim C8: for a power-of-two length, the bit-reversal permutation is
an involution on sequences, and `reverseBits` is an involution on
indices below the length. -/
theorem bitReversalPermutation_involution {α : Type} [Inhabited α]
    (l : List α) (k : Nat) (hlen : l.length = 2 ^ k) (hk : k < 64) :
    bitReversalPermutation (bitReversalPermutation l) = l ∧
    ∀ i < l.length, reverseBits (reverseBits i l.length) l.length = i := by
  have hblen : ∀ m : List α, (bitReversalPermutation m).length = m.length := by
    intro m; simp [bitReversalPermutation]
  have hget : ∀ (m : List α) (i : Nat) (h1 : i < (bitReversalPermutation m).length),
      (bitReversalPermutation m)[i] = m.getD (reverseBits i m.length) default := by
    intro m i h1
    simp [bitReversalPermutation]
  constructor
  · apply List.ext_getElem
    · rw [hblen, hblen]
    · intro i h1 h2
      have hi : i < 2 ^ k := by rw [← hlen]; exact h2
      have hrb : reverseBits i l.length < l.length := by
        rw [hlen]; exact reverseBits_lt k hk i hi
      rw [hget (bitReversalPermutation l) i h1, hblen]
      have hrb1 : reverseBits i l.length < (bitReversalPermutation l).length := by
        rw [hblen]; exact hrb
      rw [List.getD_eq_getElem _ _ hrb1, hget l _ hrb1]
      have hinv : reverseBits (reverseBits i l.length) l.length = i := by
        rw [hlen]
        exact reverseBits_involution k hk i hi
      rw [hinv, List.getD_eq_getElem _ _ h2]
  · intro i hi
    rw [hlen] at hi ⊢
    exact reverseBits_involution k hk i hi

/-- Claim C8 witness. -/
theorem bitReversalPermutation_involution_witness :
    (([10, 11, 12, 13, 14, 15, 16, 17] : List ℕ).length = 2 ^ 3 ∧ 3 < 64) ∧
    (bitReversalPermutation
        (bitReversalPermutation ([10, 11, 12, 13, 14, 15, 16, 17] : List ℕ))
        = [10, 11, 12, 13, 14, 15, 16, 17] ∧
      ∀ i < ([10, 11, 12, 13, 14, 15, 16, 17] : List ℕ).length,
        reverseBits
            (reverseBits i ([10, 11, 12, 13, 14, 15, 16, 17] : List ℕ).length)
            ([10, 11, 12, 13, 14, 15, 16, 17] : List ℕ).length = i) :=
  ⟨⟨by decide, by decide⟩,
    bitReversalPermutation_involution [10, 11, 12, 13, 14, 15, 16, 17] 3
      (by decide) (by decide)⟩

section AlgebraicProofs

variable {F : Type} [Field F] [DecidableEq F]

/-! ### Powers -/

theorem computePowersAux_spec (r : F) :
    ∀ (n : Nat) (cur : F),
      (computePowersAux r cur n).length = n ∧
      ∀ i < n, (computePowersAux r cur n).getD i 0 = cur * r ^ i
  | 0, cur => by simp [computePowersAux]
  | n + 1, cur => by
    obtain ⟨ihlen, ihget⟩ := computePowersAux_spec r n (cur * r)
    refine ⟨by simp [computePowersAux, ihlen], ?_⟩
    intro i hi
    match i with
    | 0 => simp [computePowersAux]
    | j + 1 =>
      have hj : j < n := by omega
      simp only [computePowersAux, List.getD_cons_succ]
      rw [ihget j hj, pow_succ]
      ring

/-- Claim C6: `ComputePowers r m` returns exactly `m` scalars, element `0`
is the multiplicative identity, and element `i` is `r ^ i` for every
`i < m`. -/
theorem computePowers_spec (r : F) (n : Nat) :
    (ComputePowers r n).length = n ∧
    (0 < n → (ComputePowers r n).getD 0 0 = 1) ∧
    ∀ i < n, (ComputePowers r n).getD i 0 = r ^ i := by
  obtain ⟨hlen, hget⟩ := computePowersAux_spec r n 1
  exact ⟨hlen, fun hn => by rw [ComputePowers, hget 0 hn, pow_zero, mul_one],
    fun i hi => by rw [ComputePowers, hget i hi, one_mul]⟩

/-- Claim C6 witness. -/
theorem computePowers_spec_witness :
    (ComputePowers (2 : ZMod 5) 3).length = 3 ∧
    (0 < 3 ∧ (ComputePowers (2 : ZMod 5) 3).getD 0 0 = 1) ∧
    (2 < 3 ∧ (ComputePowers (2 : ZMod 5) 3).getD 2 0 = 2 ^ 2) :=
  ⟨(computePowers_spec (2 : ZMod 5) 3).1,
   ⟨by decide, (computePowers_spec (2 : ZMod 5) 3).2.1 (by decide)⟩,
   ⟨by decide, (computePowers_spec (2 : ZMod 5) 3).2.2 2 (by decide)⟩⟩

/-! ### Single-proof computation -/

theorem computeDenominators_of_mem (d : List F) (z : F) (hz : z ∈ d) :
    computeDenominators d z = .error "invalid z challenge" := by
  induction d with
  | nil => cases hz
  | cons x xs ih =>
    rw [computeDenominators]
    rcases eq_or_ne x z with rfl | hxz
    · rw [if_pos rfl]
    · have hzxs : z ∈ xs := by
        rcases List.mem_cons.mp hz with h | h
        · exact absurd h.symm hxz
        · exact h
      rw [if_neg hxz, ih hzxs]

theorem computeDenominators_of_not_mem (d : List F) (z : F) (hz : z ∉ d) :
    computeDenominators d z = .ok (d.map (fun x => x - z)) := by
  induction d with
  | nil => rfl
  | cons x xs ih =>
    rw [computeDenominators,
      if_neg (fun h : x = z => hz (h ▸ List.mem_cons_self x xs)),
      ih (fun h => hz (List.mem_cons_of_mem x h))]
    rfl

theorem computeKZGProof_success (d srs p : List F) (z : F)
    (hlen : p.length = d.length) (hz : z ∉ d) :
    ComputeKZGProof d srs p z =
      (ToCompressedG1 (LinCombG1 srs
        (List.zipWith (fun a b => a / b)
          (p.map (fun a => a - EvaluatePolynomialInEvaluationForm d p z))
          (d.map (fun x => x - z)))), none) := by
  unfold ComputeKZGProof
  rw [if_neg (fun hne => hne hlen), computeDenominators_of_not_mem d z hz]

/-- Claim C2: for a polynomial of domain length and a challenge hitting a
domain element, `ComputeKZGProof` returns the `"invalid z challenge"`
error; the error arises already in the denominator loop, before the
elementwise division is ever performed. -/
theorem computeKZGProof_domain_collision (d srs p : List F) (z : F)
    (hlen : p.length = d.length) (hz : z ∈ d) :
    ComputeKZGProof d srs p z = (none, some "invalid z challenge") ∧
    computeDenominators d z = .error "invalid z challenge" := by
  have hden := computeDenominators_of_mem d z hz
  refine ⟨?_, hden⟩
  unfold ComputeKZGProof
  rw [if_neg (fun hne => hne hlen), hden]

/-- Claim C2 witness. -/
theorem computeKZGProof_domain_collision_witness :
    (([3, 1] : List (ZMod 5)).length = ([1, 4] : List (ZMod 5)).length ∧
      (4 : ZMod 5) ∈ [(1 : ZMod 5), 4]) ∧
    ComputeKZGProof [(1 : ZMod 5), 4] [4, 2] [3, 1] 4
      = (none, some "invalid z challenge") ∧
    computeDenominators [(1 : ZMod 5), 4] (4 : ZMod 5)
      = .error "invalid z challenge" :=
  ⟨⟨by decide, by decide⟩,
    computeKZGProof_domain_collision [(1 : ZMod 5), 4] [4, 2] [3, 1] 4
      (by decide) (by decide)⟩

theorem computeKZGProof_error_none (d srs p : List F) (z : F)
    (h : (ComputeKZGProof d srs p z).2.isSome = true) :
    (ComputeKZGProof d srs p z).1 = none := by
  by_cases hlen : p.length = d.length
  · rcases hd : computeDenominators d z with e | den
    · unfold ComputeKZGProof
      rw [if_neg (fun hne => hne hlen), hd]
    · exfalso
      unfold ComputeKZGProof at h
      rw [if_neg (fun hne => hne hlen), hd] at h
      simp at h
  · unfold ComputeKZGProof
    rw [if_pos hlen]

/-- Claim C10: whenever `ComputeKZGProof` or
`ComputeAggregateKZGProofFromPolynomials` returns an error, the proof
value returned alongside it is the zero `KZGProof` (the all-zero bytes,
`none` in this model), never a partially computed proof. -/
theorem error_returns_zero_proof
    (hashFn : List (List F) → List (CompressedG1 F) → F)
    (d srs p : List F) (z : F) (blobs : List (List F)) :
    ((ComputeKZGProof d srs p z).2.isSome = true →
      (ComputeKZGProof d srs p z).1 = none) ∧
    ((ComputeAggregateKZGProofFromPolynomials hashFn d srs blobs).2.isSome = true →
      (ComputeAggregateKZGProofFromPolynomials hashFn d srs blobs).1 = none) := by
  refine ⟨computeKZGProof_error_none d srs p z, ?_⟩
  intro h
  simp only [ComputeAggregateKZGProofFromPolynomials] at h ⊢
  rcases hagg : ComputeAggregatedPolyAndCommitment hashFn blobs
      (blobs.map (PolynomialToKZGCommitment srs)) with e | res
  · rfl
  · rw [hagg] at h
    exact computeKZGProof_error_none d srs res.1 res.2.2 h

/-- Claim C10 witness. -/
theorem error_returns_zero_proof_witness :
    ((ComputeKZGProof [(1 : ZMod 5), 4] [4, 2] [3] 2).2.isSome = true ∧
      (ComputeKZGProof [(1 : ZMod 5), 4] [4, 2] [3] 2).1 = none) ∧
    ((ComputeAggregateKZGProofFromPolynomials (fun _ _ => (2 : ZMod 5))
        [(1 : ZMod 5), 4] [4, 2] []).2.isSome = true ∧
      (ComputeAggregateKZGProofFromPolynomials (fun _ _ => (2 : ZMod 5))
        [(1 : ZMod 5), 4] [4, 2] []).1 = none) :=
  ⟨⟨by decide,
    (error_returns_zero_proof (fun _ _ => (2 : ZMod 5)) [(1 : ZMod 5), 4] [4, 2]
      [3] 2 []).1 (by decide)⟩,
   ⟨by decide,
    (error_returns_zero_proof (fun _ _ => (2 : ZMod 5)) [(1 : ZMod 5), 4] [4, 2]
      [3] 2 []).2 (by decide)⟩⟩

/-! ### Aggregation -/

theorem LinCombG1_eq_sum :
    ∀ a b : List F, LinCombG1 a b
      = ∑ i ∈ Finset.range (min a.length b.length), b.getD i 0 * a.getD i 0
  | [], b => by simp [LinCombG1]
  | x :: xs, [] => by simp [LinCombG1]
  | x :: xs, y :: ys => by
    have ih := LinCombG1_eq_sum xs ys
    simp only [LinCombG1, List.zipWith_cons_cons, List.sum_cons] at ih ⊢
    rw [ih, List.length_cons, List.length_cons, Nat.succ_min_succ,
      Finset.sum_range_succ']
    simp only [List.getD_cons_succ, List.getD_cons_zero]
    ring

theorem decodeCommitments_map_some :
    ∀ cs : List F, decodeCommitments (cs.map ToCompressedG1) = .ok cs
  | [] => rfl
  | c :: rest => by
    simp [decodeCommitments, ToCompressedG1, FromCompressedG1,
      decodeCommitments_map_some rest]

theorem foldl_addScale_spec :
    ∀ (pairs : List (List F × F)) (acc : List F),
      (∀ pr ∈ pairs, pr.1.length = acc.length) →
      (pairs.foldl (fun acc vs => addPolys acc (scalePoly vs.2 vs.1)) acc).length
          = acc.length ∧
      ∀ j < acc.length,
        (pairs.foldl (fun acc vs => addPolys acc (scalePoly vs.2 vs.1)) acc).getD j 0
          = acc.getD j 0 + ∑ i ∈ Finset.range pairs.length,
              (pairs.getD i ([], 0)).2 * ((pairs.getD i ([], 0)).1.getD j 0)
  | [], acc, _ => ⟨rfl, by simp⟩
  | (v, s) :: ps, acc, hlen => by
    have hv : v.length = acc.length := hlen (v, s) (List.mem_cons_self _ _)
    have hacc : (addPolys acc (scalePoly s v)).length = acc.length := by
      simp [addPolys, scalePoly, hv]
    have hnext : ∀ pr ∈ ps, pr.1.length = (addPolys acc (scalePoly s v)).length := by
      intro pr hpr
      rw [hacc]
      exact hlen pr (List.mem_cons_of_mem _ hpr)
    obtain ⟨ihlen, ihget⟩ := foldl_addScale_spec ps (addPolys acc (scalePoly s v)) hnext
    refine ⟨by simp only [List.foldl_cons]; rw [ihlen, hacc], ?_⟩
    intro j hj
    have hj1 : j < (addPolys acc (scalePoly s v)).length := by rw [hacc]; exact hj
    have haddget : (addPolys acc (scalePoly s v)).getD j 0
        = acc.getD j 0 + s * v.getD j 0 := by
      rw [List.getD_eq_getElem _ _ hj1]
      simp only [addPolys, scalePoly] at hj1 ⊢
      rw [List.getElem_zipWith, List.getElem_map,
        ← List.getD_eq_getElem acc 0 hj, ← List.getD_eq_getElem v 0 (by omega)]
    simp only [List.foldl_cons]
    rw [ihget j hj1, haddget, List.length_cons, Finset.sum_range_succ']
    simp only [List.getD_cons_succ, List.getD_cons_zero]
    ring

theorem PolyLinComb_ok (vectors : List (List F)) (scalars : List F) (n0 : Nat)
    (hne : vectors ≠ []) (hlen : vectors.length = scalars.length)
    (hu : ∀ v ∈ vectors, v.length = n0) :
    ∃ agg, PolyLinComb vectors scalars = .ok agg ∧ agg.length = n0 ∧
      ∀ j < n0, agg.getD j 0
        = ∑ i ∈ Finset.range vectors.length,
            scalars.getD i 0 * ((vectors.getD i []).getD j 0) := by
  match vectors, hne with
  | v0 :: vs, _ =>
    have hv0 : v0.length = n0 := hu v0 (List.mem_cons_self _ _)
    simp only [PolyLinComb]
    rw [if_pos ⟨hlen, fun v hv => by rw [hu v hv, hv0]⟩]
    have hrep : (List.replicate v0.length (0 : F)).length = v0.length :=
      List.length_replicate _ _
    have hprlen : ∀ pr ∈ List.zip (v0 :: vs) scalars,
        pr.1.length = (List.replicate v0.length (0 : F)).length := by
      intro pr hpr
      rw [hrep, hu _ (List.of_mem_zip hpr).1, hv0]
    obtain ⟨hflen, hfget⟩ :=
      foldl_addScale_spec (List.zip (v0 :: vs) scalars) (List.replicate v0.length 0)
        hprlen
    refine ⟨_, rfl, by rw [hflen, hrep, hv0], ?_⟩
    intro j hj
    have hj0 : j < (List.replicate v0.length (0 : F)).length := by
      rw [hrep, hv0]; exact hj
    rw [hfget j hj0, List.getD_eq_getElem _ _ hj0, List.getElem_replicate, zero_add]
    have hplen : (List.zip (v0 :: vs) scalars).length = (v0 :: vs).length := by
      rw [List.length_zip, hlen, min_self]
    rw [hplen]
    refine Finset.sum_congr rfl fun i hi => ?_
    rw [Finset.mem_range] at hi
    have hip : i < (List.zip (v0 :: vs) scalars).length := by rw [hplen]; exact hi
    have hi2 : i < scalars.length := by rw [← hlen]; exact hi
    rw [List.getD_eq_getElem _ _ hip, List.getElem_zip,
      List.getD_eq_getElem scalars 0 hi2, List.getD_eq_getElem (v0 :: vs) [] hi]

/-- Claim C5: for a nonempty batch with Fiat-Shamir challenge `r`,
`ComputeAggregatedPolyAndCommitment` returns the aggregated polynomial
`Σ rⁱ·polyᵢ` (elementwise), the aggregated commitment `Σ rⁱ·commᵢ` over
the decoded commitments, and the evaluation challenge
`r·powers[m-1] = r^m`. -/
theorem computeAggregatedPolyAndCommitment_spec
    (hashFn : List (List F) → List (CompressedG1 F) → F)
    (blobs : List (List F)) (cs : List F) (n0 : Nat) (r : F)
    (hne : blobs ≠ []) (hu : ∀ b ∈ blobs, b.length = n0)
    (hcs : cs.length = blobs.length)
    (hr : r = hashFn blobs (cs.map ToCompressedG1)) :
    ∃ aggPoly : List F,
      ComputeAggregatedPolyAndCommitment hashFn blobs (cs.map ToCompressedG1)
        = .ok (aggPoly,
            ∑ i ∈ Finset.range blobs.length, r ^ i * cs.getD i 0,
            r ^ blobs.length) ∧
      aggPoly.length = n0 ∧
      ∀ j < n0, aggPoly.getD j 0
        = ∑ i ∈ Finset.range blobs.length, r ^ i * (blobs.getD i []).getD j 0 := by
  subst hr
  set r := hashFn blobs (cs.map ToCompressedG1) with hrdef
  have hm : 0 < blobs.length := List.length_pos.mpr hne
  obtain ⟨hplen, hpget⟩ := computePowersAux_spec r blobs.length 1
  have hplen2 : (ComputePowers r blobs.length).length = blobs.length := hplen
  have hpget1 : ∀ i < blobs.length, (ComputePowers r blobs.length).getD i 0 = r ^ i :=
    fun i hi => by rw [ComputePowers, hpget i hi, one_mul]
  obtain ⟨agg, haggeq, hagglen, haggget⟩ :=
    PolyLinComb_ok blobs (ComputePowers r blobs.length) n0 hne
      (by rw [hplen2]) hu
  have hchal : r * (ComputePowers r blobs.length).getD (blobs.length - 1) 0
      = r ^ blobs.length := by
    rw [hpget1 (blobs.length - 1) (by omega)]
    obtain ⟨t, ht⟩ : ∃ t, blobs.length = t + 1 := ⟨blobs.length - 1, by omega⟩
    rw [ht, Nat.add_sub_cancel, pow_succ]
    ring
  have hcomm : LinCombG1 cs (ComputePowers r blobs.length)
      = ∑ i ∈ Finset.range blobs.length, r ^ i * cs.getD i 0 := by
    rw [LinCombG1_eq_sum, hplen2, hcs, min_self]
    exact Finset.sum_congr rfl fun i hi =>
      by rw [hpget1 i (Finset.mem_range.mp hi)]
  refine ⟨agg, ?_, hagglen, ?_⟩
  · simp only [ComputeAggregatedPolyAndCommitment]
    simp only [← hrdef]
    rw [hplen2, if_neg (by omega : ¬blobs.length = 0), haggeq,
      decodeCommitments_map_some]
    show Except.ok (agg, LinCombG1 cs (ComputePowers r blobs.length),
      r * (ComputePowers r blobs.length).getD (blobs.length - 1) 0) = _
    rw [hcomm, hchal]
  · intro j hj
    rw [haggget j hj]
    exact Finset.sum_congr rfl fun i hi =>
      by rw [hpget1 i (Finset.mem_range.mp hi)]

/-- Claim C5 witness. -/
theorem computeAggregatedPolyAndCommitment_spec_witness :
    (([[ (1 : ZMod 5), 2], [3, 4]] : List (List (ZMod 5))) ≠ [] ∧
      (∀ b ∈ ([[ (1 : ZMod 5), 2], [3, 4]] : List (List (ZMod 5))), b.length = 2) ∧
      ([2, 3] : List (ZMod 5)).length
        = ([[ (1 : ZMod 5), 2], [3, 4]] : List (List (ZMod 5))).length) ∧
    ∃ aggPoly : List (ZMod 5),
      ComputeAggregatedPolyAndCommitment (fun _ _ => (2 : ZMod 5))
          [[1, 2], [3, 4]] (([2, 3] : List (ZMod 5)).map ToCompressedG1)
        = .ok (aggPoly,
            ∑ i ∈ Finset.range 2, (2 : ZMod 5) ^ i * ([2, 3] : List (ZMod 5)).getD i 0,
            (2 : ZMod 5) ^ 2) ∧
      aggPoly.length = 2 ∧
      ∀ j < 2, aggPoly.getD j 0
        = ∑ i ∈ Finset.range 2,
            (2 : ZMod 5) ^ i * (([[ (1 : ZMod 5), 2], [3, 4]]).getD i []).getD j 0 :=
  ⟨⟨by decide, by decide, by decide⟩,
    computeAggregatedPolyAndCommitment_spec (fun _ _ => (2 : ZMod 5))
      [[1, 2], [3, 4]] [2, 3] 2 2 (by decide) (by decide) (by decide) rfl⟩

theorem addPolys_zero_scale_one (v : List F) :
    addPolys (List.replicate v.length 0) (scalePoly 1 v) = v := by
  induction v with
  | nil => rfl
  | cons x xs ih =>
    simp only [List.length_cons, List.replicate_succ, scalePoly, List.map_cons,
      addPolys, List.zipWith_cons_cons]
    rw [show ((0 : F) + 1 * x) = x by ring]
    congr 1

theorem polyLinComb_singleton (P : List F) : PolyLinComb [P] [(1 : F)] = .ok P := by
  simp only [PolyLinComb]
  rw [if_pos ⟨rfl, by intro v hv; rw [List.mem_singleton.mp hv]⟩]
  show Except.ok (addPolys (List.replicate P.length 0) (scalePoly 1 P)) = _
  rw [addPolys_zero_scale_one]

/-- Claim C7: for a batch of exactly one polynomial, the aggregate-proof
path returns exactly the single-proof path's result at the derived
challenge `r` (the aggregated polynomial is `1·P = P` and the evaluation
challenge is `r·r⁰ = r`); when `P` has domain length and `r` misses the
domain, the call succeeds. -/
theorem computeAggregateKZGProof_singleton
    (hashFn : List (List F) → List (CompressedG1 F) → F) (d srs P : List F) :
    ComputeAggregateKZGProofFromPolynomials hashFn d srs [P]
      = ComputeKZGProof d srs P (hashFn [P] [PolynomialToKZGCommitment srs P]) ∧
    (P.length = d.length →
      hashFn [P] [PolynomialToKZGCommitment srs P] ∉ d →
      (ComputeAggregateKZGProofFromPolynomials hashFn d srs [P]).2 = none) := by
  set r := hashFn [P] [PolynomialToKZGCommitment srs P] with hrdef
  have hagg : ComputeAggregatedPolyAndCommitment hashFn [P]
      ([P].map (PolynomialToKZGCommitment srs))
      = .ok (P, LinCombG1 [LinCombG1 srs P] [1], r) := by
    simp only [ComputeAggregatedPolyAndCommitment, List.map_cons, List.map_nil]
    simp only [← hrdef]
    have hlen1 : ([P] : List (List F)).length = 1 := rfl
    have hpows : ComputePowers r 1 = [1] := rfl
    rw [hlen1, hpows, if_neg (by simp), polyLinComb_singleton]
    have hdec : decodeCommitments [PolynomialToKZGCommitment srs P]
        = .ok [LinCombG1 srs P] := rfl
    rw [hdec]
    show Except.ok (P, LinCombG1 [LinCombG1 srs P] [(1 : F)], r * 1) = _
    rw [mul_one]
  constructor
  · simp only [ComputeAggregateKZGProofFromPolynomials]
    rw [hagg]
  · intro hlen hz
    simp only [ComputeAggregateKZGProofFromPolynomials]
    rw [hagg]
    show (ComputeKZGProof d srs P r).2 = none
    rw [computeKZGProof_success d srs P r hlen hz]

/-- Claim C7 witness. -/
theorem computeAggregateKZGProof_singleton_witness :
    ComputeAggregateKZGProofFromPolynomials (fun _ _ => (2 : ZMod 5))
        [(1 : ZMod 5), 4] [4, 2] [[3, 1]]
      = ComputeKZGProof [(1 : ZMod 5), 4] [4, 2] [3, 1]
          ((fun (_ : List (List (ZMod 5))) (_ : List (CompressedG1 (ZMod 5))) =>
            (2 : ZMod 5)) [[3, 1]]
            [PolynomialToKZGCommitment [4, 2] [3, 1]]) ∧
    (([3, 1] : List (ZMod 5)).length = ([1, 4] : List (ZMod 5)).length ∧
      (2 : ZMod 5) ∉ [(1 : ZMod 5), 4] ∧
      (ComputeAggregateKZGProofFromPolynomials (fun _ _ => (2 : ZMod 5))
        [(1 : ZMod 5), 4] [4, 2] [[3, 1]]).2 = none) :=
  ⟨(computeAggregateKZGProof_singleton (fun _ _ => (2 : ZMod 5))
      [(1 : ZMod 5), 4] [4, 2] [3, 1]).1,
    by decide, by decide,
    (computeAggregateKZGProof_singleton (fun _ _ => (2 : ZMod 5))
      [(1 : ZMod 5), 4] [4, 2] [3, 1]).2 (by decide) (by decide)⟩

theorem decodeCommitments_error_of_mem_none (comms : List (CompressedG1 F))
    (h : none ∈ comms) :
    decodeCommitments comms = .error "failed to decode point" := by
  induction comms with
  | nil => cases h
  | cons c cs ih =>
    rcases c with _ | x
    · rfl
    · have hcs : none ∈ cs := by
        rcases List.mem_cons.mp h with h1 | h1
        · cases h1
        · exact h1
      simp [decodeCommitments, FromCompressedG1, ih hcs]

theorem decodeCommitments_ok_of_forall (comms : List (CompressedG1 F))
    (h : ∀ c ∈ comms, c ≠ none) :
    ∃ cs, decodeCommitments comms = .ok cs := by
  induction comms with
  | nil => exact ⟨[], rfl⟩
  | cons c cs ih =>
    obtain ⟨rest, hrest⟩ := ih fun c hc => h c (List.mem_cons_of_mem _ hc)
    rcases c with _ | x
    · exact absurd rfl (h none (List.mem_cons_self _ _))
    · exact ⟨x :: rest, by simp [decodeCommitments, FromCompressedG1, hrest]⟩

/-- Claim C3 (amended): `ComputeAggregatedPolyAndCommitment` reports
errors for zero-length batches and for commitments that fail decoding,
but it performs no comparison between the polynomial count and the
commitment count: with a nonempty uniform batch and decodable
commitments it succeeds regardless of any count mismatch. -/
theorem computeAggregated_error_reporting
    (hashFn : List (List F) → List (CompressedG1 F) → F)
    (blobs : List (List F)) (comms : List (CompressedG1 F)) (n0 : Nat) :
    (blobs = [] →
      ComputeAggregatedPolyAndCommitment hashFn blobs comms
        = .error "powers cannot be 0 length") ∧
    (blobs ≠ [] → (∀ b ∈ blobs, b.length = n0) → none ∈ comms →
      ComputeAggregatedPolyAndCommitment hashFn blobs comms
        = .error "failed to decode point") ∧
    (blobs ≠ [] → (∀ b ∈ blobs, b.length = n0) → (∀ c ∈ comms, c ≠ none) →
      ∃ res, ComputeAggregatedPolyAndCommitment hashFn blobs comms = .ok res) := by
  refine ⟨fun hb => by subst hb; rfl, ?_, ?_⟩
  · intro hne hu hnone
    obtain ⟨hplen, _⟩ := computePowersAux_spec (hashFn blobs comms) blobs.length 1
    have hplen2 : (ComputePowers (hashFn blobs comms) blobs.length).length
        = blobs.length := hplen
    obtain ⟨agg, haggeq, _, _⟩ :=
      PolyLinComb_ok blobs (ComputePowers (hashFn blobs comms) blobs.length) n0
        hne (by rw [hplen2]) hu
    simp only [ComputeAggregatedPolyAndCommitment]
    rw [hplen2, if_neg (fun h0 => hne (List.length_eq_zero.mp h0)), haggeq,
      decodeCommitments_error_of_mem_none comms hnone]
  · intro hne hu hsome
    obtain ⟨hplen, _⟩ := computePowersAux_spec (hashFn blobs comms) blobs.length 1
    have hplen2 : (ComputePowers (hashFn blobs comms) blobs.length).length
        = blobs.length := hplen
    obtain ⟨agg, haggeq, _, _⟩ :=
      PolyLinComb_ok blobs (ComputePowers (hashFn blobs comms) blobs.length) n0
        hne (by rw [hplen2]) hu
    obtain ⟨cs, hcs⟩ := decodeCommitments_ok_of_forall comms hsome
    refine ⟨(agg, LinCombG1 cs (ComputePowers (hashFn blobs comms) blobs.length),
      hashFn blobs comms
        * (ComputePowers (hashFn blobs comms) blobs.length).getD (blobs.length - 1) 0),
      ?_⟩
    simp only [ComputeAggregatedPolyAndCommitment]
    rw [hplen2, if_neg (fun h0 => hne (List.length_eq_zero.mp h0)), haggeq, hcs]

/-- Claim C3 (amended) witness. -/
theorem computeAggregated_error_reporting_witness :
    (([] : List (List (ZMod 5))) = [] ∧
      ComputeAggregatedPolyAndCommitment (fun _ _ => (2 : ZMod 5)) []
          ([some 3] : List (CompressedG1 (ZMod 5)))
        = .error "powers cannot be 0 length") ∧
    (([[1, 2]] : List (List (ZMod 5))) ≠ [] ∧
      (∀ b ∈ ([[1, 2]] : List (List (ZMod 5))), b.length = 2) ∧
      (none : CompressedG1 (ZMod 5)) ∈ [some (3 : ZMod 5), none] ∧
      ComputeAggregatedPolyAndCommitment (fun _ _ => (2 : ZMod 5)) [[1, 2]]
          [some (3 : ZMod 5), none]
        = .error "failed to decode point") ∧
    ((∀ c ∈ ([some (3 : ZMod 5), some 4] : List (CompressedG1 (ZMod 5))), c ≠ none) ∧
      ∃ res, ComputeAggregatedPolyAndCommitment (fun _ _ => (2 : ZMod 5)) [[1, 2]]
          [some (3 : ZMod 5), some 4] = .ok res) :=
  ⟨⟨rfl, (computeAggregated_error_reporting (fun _ _ => (2 : ZMod 5)) []
      [some 3] 2).1 rfl⟩,
   ⟨by decide, by decide, by decide,
    (computeAggregated_error_reporting (fun _ _ => (2 : ZMod 5)) [[1, 2]]
      [some (3 : ZMod 5), none] 2).2.1 (by decide) (by decide) (by decide)⟩,
   ⟨by decide,
    (computeAggregated_error_reporting (fun _ _ => (2 : ZMod 5)) [[1, 2]]
      [some (3 : ZMod 5), some 4] 2).2.2 (by decide) (by decide) (by decide)⟩⟩

/-- Claim C3 counterexample: a batch of one polynomial supplied with two
decodable commitments — a count mismatch — is not reported as an error:
both `ComputeAggregatedPolyAndCommitment` and
`VerifyAggregateKZGProofFromPolynomials` proceed and succeed. -/
theorem computeAggregated_count_mismatch_cex :
    (([[1, 2]] : List (List (ZMod 5))).length
        ≠ ([some 3, some 4] : List (CompressedG1 (ZMod 5))).length) ∧
    ComputeAggregatedPolyAndCommitment (fun _ _ => (2 : ZMod 5))
        ([[1, 2]] : List (List (ZMod 5))) [some 3, some 4]
      = .ok ([1, 2], 3, 2) ∧
    VerifyAggregateKZGProofFromPolynomials (fun _ _ => (2 : ZMod 5))
        [(2 : ZMod 5), 3] 2 [[1, 2]] [some 3, some 4] (some 1)
      = .ok false :=
  ⟨by decide, rfl, rfl⟩

/-! ### Correctness round-trip -/

theorem interpolate_eval_eq_sum (d : List F) (w : ℕ → F) (t : F) :
    Polynomial.eval t (Lagrange.interpolate (Finset.range d.length)
        (fun i => d.getD i 0) w)
      = ∑ i ∈ Finset.range d.length, w i * lagrangeBasisAt d i t := by
  rw [Lagrange.interpolate_apply, Polynomial.eval_finset_sum]
  refine Finset.sum_congr rfl fun i hi => ?_
  rw [Polynomial.eval_mul, Polynomial.eval_C]
  congr 1
  rw [Lagrange.basis, Polynomial.eval_prod, lagrangeBasisAt]
  refine Finset.prod_congr rfl fun j hj => ?_
  rw [Lagrange.basisDivisor]
  simp only [Polynomial.eval_mul, Polynomial.eval_C, Polynomial.eval_sub,
    Polynomial.eval_X]
  rw [div_eq_mul_inv]
  ring

/-- Claim C1: for a polynomial of domain length and a challenge outside
the (duplicate-free) domain, verifying the proof produced by
`ComputeKZGProof` against the decoded commitment
`PolynomialToKZGCommitment P` and the value
`EvaluatePolynomialInEvaluationForm P z` succeeds.  The trusted-setup
consistency assumptions (the Lagrange SRS entry `i` is the `i`-th
Lagrange basis polynomial of the domain evaluated at the secret `τ`, and
`kzgSetupG2[1]` is `τ·G2`) are the spec's invariants of the setup loaded
outside `src/`. -/
theorem kzg_roundtrip_verifies (d srs p : List F) (z τ : F)
    (hn : 0 < d.length) (hnd : d.Nodup) (hlen : p.length = d.length)
    (hz : z ∉ d) (hsrslen : srs.length = d.length)
    (hsrs : ∀ i < d.length, srs.getD i 0 = lagrangeBasisAt d i τ) :
    ∃ π c, ComputeKZGProof d srs p z = (some π, none) ∧
      FromCompressedG1 (PolynomialToKZGCommitment srs p) = .ok c ∧
      VerifyKZGProofFromPoints τ c z
        (EvaluatePolynomialInEvaluationForm d p z) π = true := by
  set y := EvaluatePolynomialInEvaluationForm d p z with hydef
  set q := List.zipWith (fun a b => a / b) (p.map (fun a => a - y))
    (d.map (fun x => x - z)) with hqdef
  refine ⟨LinCombG1 srs q, LinCombG1 srs p,
    computeKZGProof_success d srs p z hlen hz, rfl, ?_⟩
  -- injectivity of the node map on the index range
  have hinj : Set.InjOn (fun i => d.getD i 0) ↑(Finset.range d.length) := by
    intro i hi j hj hij
    simp only [Finset.coe_range, Set.mem_Iio] at hi hj
    simp only at hij
    rw [List.getD_eq_getElem d 0 hi, List.getD_eq_getElem d 0 hj] at hij
    exact hnd.getElem_inj_iff.mp hij
  -- the interpolating polynomial of p over d, and the quotient polynomial
  set P := Lagrange.interpolate (Finset.range d.length) (fun i => d.getD i 0)
    (fun i => p.getD i 0) with hPdef
  have hy : y = Polynomial.eval z P := by
    rw [hydef, EvaluatePolynomialInEvaluationForm, if_neg hz, hPdef,
      interpolate_eval_eq_sum d (fun i => p.getD i 0) z]
  have hnode : ∀ i ∈ Finset.range d.length,
      Polynomial.eval (d.getD i 0) P = p.getD i 0 := fun i hi =>
    Lagrange.eval_interpolate_at_node (fun i => p.getD i 0) hinj hi
  set Q := (P - Polynomial.C y) /ₘ (Polynomial.X - Polynomial.C z) with hQdef
  have hroot : (P - Polynomial.C y).IsRoot z := by
    simp [Polynomial.IsRoot, hy]
  have hdiv : (Polynomial.X - Polynomial.C z) * Q = P - Polynomial.C y :=
    (Polynomial.mul_divByMonic_eq_iff_isRoot).mpr hroot
  have hdegP : P.degree < (d.length : WithBot ℕ) := by
    have h := Lagrange.degree_interpolate_lt (fun i => p.getD i 0) hinj
    rwa [Finset.card_range] at h
  have hdegPC : (P - Polynomial.C y).degree < (d.length : WithBot ℕ) := by
    refine lt_of_le_of_lt (Polynomial.degree_sub_le _ _) (max_lt hdegP ?_)
    exact lt_of_le_of_lt Polynomial.degree_C_le (by exact_mod_cast hn)
  have hdegQ : Q.degree < (Finset.range d.length).card := by
    rw [Finset.card_range]
    exact lt_of_le_of_lt (Polynomial.degree_divByMonic_le _ _) hdegPC
  have hQinterp : Q = Lagrange.interpolate (Finset.range d.length)
      (fun i => d.getD i 0) (fun i => Polynomial.eval (d.getD i 0) Q) :=
    Lagrange.eq_interpolate hinj hdegQ
  -- the quotient polynomial takes the loop's values at the nodes
  have hQnode : ∀ i < d.length,
      Polynomial.eval (d.getD i 0) Q
        = (p.getD i 0 - y) / (d.getD i 0 - z) := by
    intro i hi
    have hmem : d.getD i 0 ∈ d := by
      rw [List.getD_eq_getElem d 0 hi]
      exact List.getElem_mem _
    have hne : d.getD i 0 - z ≠ 0 :=
      sub_ne_zero.mpr (fun heq => hz (heq ▸ hmem))
    have h := congrArg (Polynomial.eval (d.getD i 0)) hdiv
    simp only [Polynomial.eval_mul, Polynomial.eval_sub, Polynomial.eval_X,
      Polynomial.eval_C] at h
    rw [hnode i (Finset.mem_range.mpr hi)] at h
    rw [eq_div_iff hne, mul_comm]
    exact h
  -- the commitment and the proof are the two polynomials evaluated at τ
  have hcommit : LinCombG1 srs p = Polynomial.eval τ P := by
    rw [LinCombG1_eq_sum, hsrslen, hlen, min_self, hPdef,
      interpolate_eval_eq_sum d (fun i => p.getD i 0) τ]
    exact Finset.sum_congr rfl fun i hi =>
      by rw [hsrs i (Finset.mem_range.mp hi)]
  have hqlen : q.length = d.length := by
    rw [hqdef, List.length_zipWith, List.length_map, List.length_map, hlen,
      min_self]
  have hq : ∀ i < d.length, q.getD i 0 = (p.getD i 0 - y) / (d.getD i 0 - z) := by
    intro i hi
    have hiq : i < q.length := by rw [hqlen]; exact hi
    rw [List.getD_eq_getElem q 0 hiq]
    simp only [hqdef, List.getElem_zipWith, List.getElem_map]
    rw [← List.getD_eq_getElem p 0 (by rw [hlen]; exact hi),
      ← List.getD_eq_getElem d 0 hi]
  have hproof : LinCombG1 srs q = Polynomial.eval τ Q := by
    rw [LinCombG1_eq_sum, hsrslen, hqlen, min_self]
    have h1 : ∀ i ∈ Finset.range d.length,
        q.getD i 0 * srs.getD i 0
          = Polynomial.eval (d.getD i 0) Q * lagrangeBasisAt d i τ := by
      intro i hi
      rw [Finset.mem_range] at hi
      rw [hq i hi, hsrs i hi, hQnode i hi]
    rw [Finset.sum_congr rfl h1]
    conv_rhs => rw [hQinterp]
    rw [interpolate_eval_eq_sum d (fun i => Polynomial.eval (d.getD i 0) Q) τ]
  -- the pairing equation
  have hPQ : Polynomial.eval τ P - y = (τ - z) * Polynomial.eval τ Q := by
    have h := congrArg (Polynomial.eval τ) hdiv
    simp only [Polynomial.eval_mul, Polynomial.eval_sub, Polynomial.eval_X,
      Polynomial.eval_C] at h
    rw [← h]
  rw [VerifyKZGProofFromPoints, decide_eq_true_eq, hcommit, hproof, hPQ]
  ring

/-- Claim C1 witness: domain `[1, 4]` (the square roots of unity in
`ZMod 5`), secret `τ = 2`, SRS `[L₀(2), L₁(2)] = [4, 2]`, polynomial
`[3, 1]`, challenge `3 ∉ Domain`. -/
theorem kzg_roundtrip_verifies_witness :
    (0 < ([(1 : ZMod 5), 4]).length ∧ ([(1 : ZMod 5), 4]).Nodup ∧
      ([3, 1] : List (ZMod 5)).length = ([(1 : ZMod 5), 4]).length ∧
      (3 : ZMod 5) ∉ [(1 : ZMod 5), 4] ∧
      ([4, 2] : List (ZMod 5)).length = ([(1 : ZMod 5), 4]).length ∧
      (∀ i < ([(1 : ZMod 5), 4]).length,
        ([4, 2] : List (ZMod 5)).getD i 0 = lagrangeBasisAt [(1 : ZMod 5), 4] i 2)) ∧
    ∃ π c, ComputeKZGProof [(1 : ZMod 5), 4] [4, 2] [3, 1] 3 = (some π, none) ∧
      FromCompressedG1 (PolynomialToKZGCommitment [4, 2] [3, 1]) = .ok c ∧
      VerifyKZGProofFromPoints 2 c 3
        (EvaluatePolynomialInEvaluationForm [(1 : ZMod 5), 4] [3, 1] 3) π = true := by
  have hsrs : ∀ i < ([(1 : ZMod 5), 4]).length,
      ([4, 2] : List (ZMod 5)).getD i 0 = lagrangeBasisAt [(1 : ZMod 5), 4] i 2 := by
    intro i hi
    have hi2 : i < 2 := by simpa using hi
    interval_cases i
    · rw [lagrangeBasisAt,
        show (Finset.range ([(1 : ZMod 5), 4]).length).erase 0 = {1} from by decide,
        Finset.prod_singleton,
        eq_div_iff (by decide :
          ([(1 : ZMod 5), 4].getD 0 0 - [(1 : ZMod 5), 4].getD 1 0) ≠ 0)]
      decide
    · rw [lagrangeBasisAt,
        show (Finset.range ([(1 : ZMod 5), 4]).length).erase 1 = {0} from by decide,
        Finset.prod_singleton,
        eq_div_iff (by decide :
          ([(1 : ZMod 5), 4].getD 1 0 - [(1 : ZMod 5), 4].getD 0 0) ≠ 0)]
      decide
  exact ⟨⟨by decide, by decide, by decide, by decide, by decide, hsrs⟩,
    kzg_roundtrip_verifies [(1 : ZMod 5), 4] [4, 2] [3, 1] 3 2
      (by decide) (by decide) (by decide) (by decide) (by decide) hsrs⟩

end AlgebraicProofs

end GoKZG
